import Mathlib

/-!
Shallow embedding of the ScreenWisdom interaction-segmentation engine
(`screenwisdom/core/interpreting.py` and `screenwisdom/core/recording/recording.py`),
together with theorems checking the repository's specification against it.

Modelling conventions:
* float timestamps are modelled as rationals (the code only compares, subtracts
  and orders them);
* pynput buttons, keys and uiautomation controls are opaque and are modelled as
  natural numbers (controls as `Option Nat`, since `ControlFromPoint` can yield
  `None`, and Python code compares controls against an initial `None` sentinel);
* a raised exception is modelled as `none` (`Interaction.make`);
* Python's stable `list.sort(key=...)` is modelled by `List.insertionSort`,
  which is likewise stable with respect to the key order.
-/

namespace ScreenWisdom

/-- Context data attached to every captured event
(`recording.py`, class `Context`): the uiautomation control under the
cursor / in focus (opaque, possibly `None`) and the resolved control name
(possibly `None` when resolution failed). Only these two fields are read by
the segmentation code. -/
structure Context where
  control : Option Nat
  closest_ctrl_name : Option String
deriving DecidableEq

/-- The raw input events produced by the recorders
(`recording.py`: `MouseClick`, `MouseScroll`, `KeyPress`, `KeyRelease`). -/
inductive InputEvent where
  | mouseClick (timestamp : ℚ) (x y : ℤ) (button : Nat) (pressed : Bool) (context : Context)
  | mouseScroll (timestamp : ℚ) (x y : ℤ) (dx dy : ℤ) (context : Context)
  | keyPress (timestamp : ℚ) (key : Nat) (context : Context)
  | keyRelease (timestamp : ℚ) (key : Nat) (context : Context)
deriving DecidableEq

namespace InputEvent

/-- The `timestamp` attribute shared by all events. -/
def timestamp : InputEvent → ℚ
  | mouseClick t _ _ _ _ _ => t
  | mouseScroll t _ _ _ _ _ => t
  | keyPress t _ _ => t
  | keyRelease t _ _ => t

/-- The `context` attribute shared by all events. -/
def context : InputEvent → Context
  | mouseClick _ _ _ _ _ c => c
  | mouseScroll _ _ _ _ _ c => c
  | keyPress _ _ c => c
  | keyRelease _ _ c => c

/-- The `coords` tuple of a mouse event (key events have none; the code never
reads it on them, the default is junk standing for the AttributeError). -/
def coords : InputEvent → ℤ × ℤ
  | mouseClick _ x y _ _ _ => (x, y)
  | mouseScroll _ x y _ _ _ => (x, y)
  | _ => (0, 0)

/-- The `button` attribute of a mouse click (junk default otherwise). -/
def button : InputEvent → Nat
  | mouseClick _ _ _ b _ _ => b
  | _ => 0

end InputEvent

/-- A throwaway event used as the default of `List.headD`/`List.getLastD`;
the code never reaches it on inputs where Python would not raise. -/
def dummyEvent : InputEvent := .keyPress 0 0 ⟨none, none⟩

instance : Inhabited InputEvent := ⟨dummyEvent⟩

/-- `MouseScroll.vertical_direction`: `"down" if self.dy < 0 else "up"`. -/
def vertical_direction (dy : ℤ) : String := if dy < 0 then "down" else "up"

/-- `MouseScroll.horizontal_direction`: `"left" if self.dx < 0 else "right"`. -/
def horizontal_direction (dx : ℤ) : String := if dx < 0 then "left" else "right"

/-- Modelled from the spec: the committed `constants.py` lacks the
`MOUSE_MAX_DOUBLE_CLICK_DELAY_SECONDS` value imported by `interpreting.py`;
spec section 6 fixes the double-click window D = 0.5 s, matching the comment
"the time between clicks to register a double click is generally 500ms". -/
def MOUSE_MAX_DOUBLE_CLICK_DELAY_SECONDS : ℚ := 1/2

/-- Modelled from the spec: the committed `constants.py` lacks the
`KEYBOARD_MAX_TYPING_DELAY_SECONDS` value imported by `interpreting.py`;
spec section 6 fixes the typing gap threshold T = 1.5 s, matching the comment
"the highest time between presses was 1.5 seconds". -/
def KEYBOARD_MAX_TYPING_DELAY_SECONDS : ℚ := 3/2

/-- Modelled from the spec: the `InteractionType` members referenced by
`interpreting.py` are absent from the committed `constants.py`; the member
names are exactly the ones the segmentation code uses. -/
inductive InteractionType where
  | MOUSE_DRAGGED
  | MOUSE_CLICKED
  | MOUSE_DOUBLE_CLICKED
  | MOUSE_SCROLLED
  | SINGLE_KEY_PRESSED
  | SINGLE_KEY_HELD
  | KEYBOARD_TYPING
deriving DecidableEq

/-- The `Interaction` dataclass of `interpreting.py`. The two timestamp fields
are not constructor arguments in the source (`field(init=False)`); they are
derived in `__post_init__`, modelled by `Interaction.make` below. -/
structure Interaction where
  interaction_type : InteractionType
  input_events_associated : List InputEvent
  interaction_start_timestamp : ℚ
  interaction_end_timestamp : ℚ
deriving DecidableEq

/-- `Interaction.__post_init__`: raises `ValueError` on an empty event list
(modelled as `none`), otherwise takes the start timestamp from the first event
and the end timestamp from the last event. -/
def Interaction.make (ty : InteractionType) (events : List InputEvent) : Option Interaction :=
  match events with
  | [] => none
  | e :: rest => some ⟨ty, e :: rest, e.timestamp, ((e :: rest).getLastD dummyEvent).timestamp⟩

/-- Append the interaction built from `events` to `out`; when construction
would raise (empty event list, never reached by the pipeline) nothing is
appended. -/
def emit (out : List Interaction) (ty : InteractionType) (events : List InputEvent) :
    List Interaction :=
  out ++ (Interaction.make ty events).toList

/-- Timestamp order on events, the key of `recording.sort(key=lambda e: e.timestamp)`. -/
def tsLE (a b : InputEvent) : Prop := a.timestamp ≤ b.timestamp

instance : DecidableRel tsLE := fun a b => inferInstanceAs (Decidable (a.timestamp ≤ b.timestamp))

/-- `recording.sort(key=lambda e: e.timestamp)` — a stable sort by timestamp. -/
def sortRecording (recording : List InputEvent) : List InputEvent :=
  List.insertionSort tsLE recording

/-- The loop state of `interactions_from_mouse_recording`: the output list,
the deferred click candidates, and the scroll-run bookkeeping variables. -/
structure MouseState where
  interactions : List Interaction
  related_click_events : List (List InputEvent)
  previous_scroll_control : Option Nat
  previous_scroll_x_dir : Option String
  previous_scroll_y_dir : Option String
  current_scroll_sequence : List InputEvent

/-- Initial state of the mouse loop (all previous-scroll variables `None`). -/
def initMouseState : MouseState := ⟨[], [], none, none, none, []⟩

/-- The inner-scan predicate of the drag/click section: a `MouseClick` with the
same button, released this time. -/
def isMatchingRelease (button : Nat) (e : InputEvent) : Bool :=
  match e with
  | .mouseClick _ _ _ b pressed _ => b == button && !pressed
  | _ => false

/-- The dragging-and-clicks section of the mouse loop body, for one `event`;
`suffix` is `recording[i:]`, the suffix starting at the event itself. -/
def clickStep (event : InputEvent) (suffix : List InputEvent) (st : MouseState) : MouseState :=
  match event with
  | .mouseClick _ _ _ btn true _ =>
    match suffix.find? (isMatchingRelease btn) with
    | some subseq =>
      if event.coords ≠ subseq.coords then
        { st with interactions := emit st.interactions .MOUSE_DRAGGED [event, subseq] }
      else
        { st with related_click_events := st.related_click_events ++ [[event, subseq]] }
    | none => st
  | _ => st

/-- The mouse-scrolls section of the mouse loop body, for one `event`. -/
def scrollStep (event : InputEvent) (st : MouseState) : MouseState :=
  match event with
  | .mouseScroll _ _ _ dx dy ctx =>
    if some (vertical_direction dy) = st.previous_scroll_y_dir
        ∧ some (horizontal_direction dx) = st.previous_scroll_x_dir
        ∧ ctx.control = st.previous_scroll_control then
      { st with current_scroll_sequence := st.current_scroll_sequence ++ [event] }
    else
      let st1 :=
        if st.current_scroll_sequence.length ≠ 0 then
          { st with interactions := emit st.interactions .MOUSE_SCROLLED st.current_scroll_sequence }
        else st
      { st1 with
          current_scroll_sequence := [event],
          previous_scroll_control := ctx.control,
          previous_scroll_y_dir := some (vertical_direction dy),
          previous_scroll_x_dir := some (horizontal_direction dx) }
  | _ => st

/-- The main `for i, event in enumerate(recording)` loop of
`interactions_from_mouse_recording`, processing each suffix in turn. -/
def mouseLoop : List InputEvent → MouseState → MouseState
  | [], st => st
  | e :: rest, st => mouseLoop rest (scrollStep e (clickStep e (e :: rest) st))

/-- `click_event_group[0]` — the press event of a click candidate (junk default
standing for the IndexError Python would raise on an empty group). -/
def groupPress (g : List InputEvent) : InputEvent := g.headD dummyEvent

/-- Press timestamp of a click candidate. -/
def groupPressTs (g : List InputEvent) : ℚ := (groupPress g).timestamp

/-- The single-click test of the double-click section, exactly as coded:
note both neighbour checks use the signed difference
`neighbour press timestamp - this press timestamp`. -/
def is_single_click (related : List (List InputEvent)) (i : Nat) : Bool :=
  let press := groupPress (related.getD i [])
  let priorDisqualifies : Bool :=
    if 0 < i then
      let prior := groupPress (related.getD (i - 1) [])
      decide (prior.timestamp - press.timestamp ≤ MOUSE_MAX_DOUBLE_CLICK_DELAY_SECONDS)
        && (prior.button == press.button)
    else false
  let nextDisqualifies : Bool :=
    if i < related.length - 1 then
      let next := groupPress (related.getD (i + 1) [])
      decide (next.timestamp - press.timestamp ≤ MOUSE_MAX_DOUBLE_CLICK_DELAY_SECONDS)
        && (next.button == press.button)
    else false
  !priorDisqualifies && !nextDisqualifies

/-- `single_click_indexes`, collected in ascending order of `i`. -/
def single_click_indexes (related : List (List InputEvent)) : List Nat :=
  (List.range related.length).filter (is_single_click related)

/-- The single-click emission loop: the indexes are sorted in reverse and,
as in the source, the groups are read but never removed from
`related_click_events`. -/
def mouseClicksPhase (out : List Interaction) (related : List (List InputEvent)) :
    List Interaction :=
  (single_click_indexes related).reverse.foldl
    (fun acc i => emit acc .MOUSE_CLICKED (related.getD i [])) out

/-- The index set of `range(0, len(related_click_events) - 1, 2)`. -/
def double_click_start_indexes (n : Nat) : List Nat :=
  (List.range n).filter (fun i => i % 2 == 0 && i + 1 < n)

/-- The double-click splicing loop over `related_click_events` (which, in the
source, still holds every candidate including the single clicks). -/
def mouseDoublesPhase (out : List Interaction) (related : List (List InputEvent)) :
    List Interaction :=
  (double_click_start_indexes related.length).foldl
    (fun acc i => emit acc .MOUSE_DOUBLE_CLICKED (related.getD i [] ++ related.getD (i + 1) [])) out

/-- `interactions_from_mouse_recording` from `interpreting.py`. -/
def interactions_from_mouse_recording (recording : List InputEvent) : List Interaction :=
  if recording.length = 0 then []
  else
    let sorted := sortRecording recording
    let st := mouseLoop sorted initMouseState
    mouseDoublesPhase (mouseClicksPhase st.interactions st.related_click_events)
      st.related_click_events

/-- The loop state of `interactions_from_keyboard_recording`. The sorted
`recording` list itself is mutable in the source (entries are overwritten with
`None` to neutralise re-presses), so it is part of the state, with `none`
standing for a `None` entry. -/
structure KeyboardState where
  arr : List (Option InputEvent)
  interactions : List Interaction
  related_keypress_events : List (List InputEvent)
  key_being_held : Bool

/-- The inner-scan test: a `KeyRelease` of the given key. -/
def isKeyReleaseOf (key : Nat) (e : InputEvent) : Bool :=
  match e with
  | .keyRelease _ k _ => k == key
  | _ => false

/-- The inner-scan test: another `KeyPress` of the given key. -/
def isKeyPressOf (key : Nat) (e : InputEvent) : Bool :=
  match e with
  | .keyPress _ k _ => k == key
  | _ => false

/-- The inner scan `for j, subseq_event in enumerate(recording[i+1:])` of the
keyboard loop. `slice` is the snapshot `recording[i+1:]` (Python slices copy),
`j` the relative index within it. Finding a release of the key breaks the
scan, emitting a held-key interaction or a press candidate depending on the
`key_being_held` flag; finding a re-press of the key overwrites
`recording[j] = None` — with the relative index `j`, exactly as the source
does — sets the flag, and keeps scanning. `None` entries match no test. -/
def keyScan (pressEvent : InputEvent) (key : Nat) :
    List (Option InputEvent) → Nat → KeyboardState → KeyboardState
  | [], _, st => st
  | oe :: rest, j, st =>
    match oe with
    | some subseq =>
      if isKeyReleaseOf key subseq then
        if st.key_being_held then
          { st with
              interactions := emit st.interactions .SINGLE_KEY_HELD [pressEvent, subseq],
              key_being_held := false }
        else
          { st with
              related_keypress_events := st.related_keypress_events ++ [[pressEvent, subseq]] }
      else if isKeyPressOf key subseq then
        keyScan pressEvent key rest (j + 1)
          { st with arr := st.arr.set j none, key_being_held := true }
      else keyScan pressEvent key rest (j + 1) st
    | none => keyScan pressEvent key rest (j + 1) st

/-- One iteration of the outer keyboard loop at index `i`: the current entry is
read from the live (possibly already mutated) list; only a `KeyPress` entry
starts an inner scan of the snapshot `recording[i+1:]`. (The source's guard
`if i < len(recording)` is always true inside the loop.) -/
def keyboardStep (i : Nat) (st : KeyboardState) : KeyboardState :=
  match st.arr.getD i none with
  | some e =>
    match e with
    | .keyPress _ key _ => keyScan e key (st.arr.drop (i + 1)) 0 st
    | _ => st
  | none => st

/-- The outer `for i, event in enumerate(recording)` loop of the keyboard
function: `fuel` iterations remain (the list's length never changes — entries
are only overwritten — so `enumerate` yields exactly the original length of
steps), `i` is the current index. -/
def keyboardLoop : Nat → Nat → KeyboardState → KeyboardState
  | 0, _, st => st
  | fuel + 1, i, st => keyboardLoop fuel (i + 1) (keyboardStep i st)

/-- The individual-key-press test, exactly as coded: both neighbour checks use
the signed difference `neighbour press timestamp - this press timestamp`, and
no key-identity requirement. -/
def is_individual_key_press (related : List (List InputEvent)) (i : Nat) : Bool :=
  let press := groupPress (related.getD i [])
  let priorDisqualifies : Bool :=
    if 0 < i then
      decide (groupPressTs (related.getD (i - 1) []) - press.timestamp
        ≤ KEYBOARD_MAX_TYPING_DELAY_SECONDS)
    else false
  let nextDisqualifies : Bool :=
    if i < related.length - 1 then
      decide (groupPressTs (related.getD (i + 1) []) - press.timestamp
        ≤ KEYBOARD_MAX_TYPING_DELAY_SECONDS)
    else false
  !priorDisqualifies && !nextDisqualifies

/-- `individual_key_press_indexes`, collected in ascending order of `i`. -/
def individual_key_press_indexes (related : List (List InputEvent)) : List Nat :=
  (List.range related.length).filter (is_individual_key_press related)

/-- The pop loop over the reversed individual-press indexes: each group is
popped out of `related_keypress_events` and emitted as a single-key-press
interaction. -/
def popIndividuals (indexes : List Nat) (start : List (List InputEvent) × List Interaction) :
    List (List InputEvent) × List Interaction :=
  indexes.foldl
    (fun acc i => (acc.1.eraseIdx i, emit acc.2 .SINGLE_KEY_PRESSED (acc.1.getD i [])))
    start

/-- The `typing_sequence_break_indexes` collection loop. `n` is the candidate
count, `i` the loop index, `prev` the `previous_control_name` variable (only
updated when a control change is detected); the final index `n` is appended
when the loop reaches the last candidate. `fuel` is `n - i`, so the recursion
is structural. -/
def typingBreaksAux (related : List (List InputEvent)) (n : Nat) :
    Nat → Nat → Option String → List Nat
  | 0, _, _ => []
  | fuel + 1, i, prev =>
    if i = n - 1 then [i + 1]
    else
      let g := related.getD i []
      let next := related.getD (i + 1) []
      let diff := groupPressTs next - groupPressTs g
      let control_different := (groupPress g).context.closest_ctrl_name ≠ prev
      if diff > KEYBOARD_MAX_TYPING_DELAY_SECONDS ∨ control_different then
        i :: typingBreaksAux related n fuel (i + 1)
          (if control_different then (groupPress g).context.closest_ctrl_name else prev)
      else typingBreaksAux related n fuel (i + 1) prev

/-- `typing_sequence_break_indexes` for the remaining candidate list. -/
def typing_sequence_break_indexes (related : List (List InputEvent)) : List Nat :=
  typingBreaksAux related related.length related.length 0 none

/-- The splicing loop over consecutive break indexes: each slice
`related[start:end]` contributes the press events of its groups as one typing
interaction. -/
def typingSplices (out : List Interaction) (related : List (List InputEvent))
    (breaks : List Nat) : List Interaction :=
  (List.range (breaks.length - 1)).foldl
    (fun acc k =>
      let s := breaks.getD k 0
      let e := breaks.getD (k + 1) 0
      let combined := ((related.drop s).take (e - s)).map groupPress
      emit acc .KEYBOARD_TYPING combined)
    out

/-- Order on interactions by start timestamp, the key of the final
`interactions.sort(key=lambda e: e.interaction_start_timestamp)`. -/
def startLE (a b : Interaction) : Prop :=
  a.interaction_start_timestamp ≤ b.interaction_start_timestamp

instance : DecidableRel startLE := fun a b =>
  inferInstanceAs (Decidable (a.interaction_start_timestamp ≤ b.interaction_start_timestamp))

/-- The press candidates accumulated by the keyboard loop on a (non-empty)
recording, before individual-press extraction. -/
def keyboard_related_candidates (recording : List InputEvent) : List (List InputEvent) :=
  let sorted := sortRecording recording
  (keyboardLoop sorted.length 0 ⟨sorted.map some, [], [], false⟩).related_keypress_events

/-- The candidates remaining after the individual key presses are popped —
the input of the typing resolver. -/
def keyboard_remaining_candidates (recording : List InputEvent) : List (List InputEvent) :=
  let related := keyboard_related_candidates recording
  (popIndividuals (individual_key_press_indexes related).reverse (related, [])).1

/-- `interactions_from_keyboard_recording` from `interpreting.py`. -/
def interactions_from_keyboard_recording (recording : List InputEvent) : List Interaction :=
  if recording.length = 0 then []
  else
    let sorted := sortRecording recording
    let st := keyboardLoop sorted.length 0 ⟨sorted.map some, [], [], false⟩
    let popped := popIndividuals (individual_key_press_indexes st.related_keypress_events).reverse
      (st.related_keypress_events, st.interactions)
    let breaks := typing_sequence_break_indexes popped.1
    List.insertionSort startLE (typingSplices popped.2 popped.1 breaks)

/-- The recorder state (`InputRecorder` of `recording.py`): the listener
machinery is platform glue; the state the drain operation acts on is the
`recording` buffer. -/
structure InputRecorder where
  recording : List InputEvent

/-- A capture callback appending one event to the buffer
(`self.recording.append(...)`). -/
def InputRecorder.appendEvent (r : InputRecorder) (e : InputEvent) : InputRecorder :=
  ⟨r.recording ++ [e]⟩

/-- A sequence of capture callbacks in order. -/
def InputRecorder.appendAll (r : InputRecorder) (es : List InputEvent) : InputRecorder :=
  es.foldl InputRecorder.appendEvent r

/-- `InputRecorder.pop_recording`: swaps the buffer for an empty one and
returns the old contents. -/
def InputRecorder.pop_recording (r : InputRecorder) : List InputEvent × InputRecorder :=
  (r.recording, ⟨[]⟩)

/-! ### Invariants used in the proofs -/

/-- The well-timestampedness property claimed (spec sections 3 and 8) for every
emitted interaction: a non-empty event list, start timestamp = first event's
timestamp, end timestamp = last event's timestamp, start ≤ end. -/
def GoodI (it : Interaction) : Prop :=
  it.input_events_associated ≠ [] ∧
  it.interaction_start_timestamp = (it.input_events_associated.headD dummyEvent).timestamp ∧
  it.interaction_end_timestamp = (it.input_events_associated.getLastD dummyEvent).timestamp ∧
  it.interaction_start_timestamp ≤ it.interaction_end_timestamp

/-- Shape invariant of a press/release candidate: a two-event list whose press
does not come after its release. -/
def GoodGroup (g : List InputEvent) : Prop :=
  ∃ p r, g = [p, r] ∧ p.timestamp ≤ r.timestamp

/-- Invariant carried through the mouse loop; `suffix` is the part of the
sorted recording not yet processed. -/
structure MouseInv (st : MouseState) (suffix : List InputEvent) : Prop where
  ints : ∀ it ∈ st.interactions, GoodI it
  groups : ∀ g ∈ st.related_click_events, GoodGroup g
  order : (st.related_click_events.map groupPressTs).Pairwise (· ≤ ·)
  bound : ∀ t ∈ st.related_click_events.map groupPressTs, ∀ s ∈ suffix, t ≤ s.timestamp
  seq : st.current_scroll_sequence.Pairwise tsLE
  seqBound : ∀ c ∈ st.current_scroll_sequence, ∀ s ∈ suffix, c.timestamp ≤ s.timestamp

/-- Invariant carried through the keyboard loop; `orig` is the sorted
recording as it was before any entry was overwritten with `None`, `i` the
current outer index. -/
structure KbInv (orig : List InputEvent) (i : Nat) (st : KeyboardState) : Prop where
  arrLen : st.arr.length = orig.length
  arrOrig : ∀ j e, st.arr.get? j = some (some e) → orig.get? j = some e
  ints : ∀ it ∈ st.interactions, GoodI it ∧ it.interaction_type ≠ .KEYBOARD_TYPING
  groups : ∀ g ∈ st.related_keypress_events, GoodGroup g
  order : (st.related_keypress_events.map groupPressTs).Pairwise (· ≤ ·)
  bound : ∀ t ∈ st.related_keypress_events.map groupPressTs,
    ∀ k e, i ≤ k → orig.get? k = some e → t ≤ e.timestamp

instance : IsTotal InputEvent tsLE := ⟨fun a b => le_total a.timestamp b.timestamp⟩

instance : IsTrans InputEvent tsLE := ⟨fun _ _ _ h1 h2 => le_trans h1 h2⟩

instance : IsTotal Interaction startLE :=
  ⟨fun a b => le_total a.interaction_start_timestamp b.interaction_start_timestamp⟩

instance : IsTrans Interaction startLE := ⟨fun _ _ _ h1 h2 => le_trans h1 h2⟩

/-! ### Concrete inputs used to settle the claims -/

/-- An all-absent context (resolution failed / no control). -/
def ctx0 : Context := ⟨none, none⟩

/-- Two presses and two releases of button 0, all at coordinates (5, 5), with
press timestamps 0 and 1 — more than 0.5 s apart. -/
def twoClicksBatch : List InputEvent :=
  [.mouseClick 0 5 5 0 true ctx0, .mouseClick (1/10) 5 5 0 false ctx0,
   .mouseClick 1 5 5 0 true ctx0, .mouseClick (11/10) 5 5 0 false ctx0]

/-- Five scroll events with constant direction (dx = 1, dy = 1) over the same
control, ending the batch. -/
def fiveScrollsBatch : List InputEvent :=
  [.mouseScroll 0 0 0 1 1 ⟨some 1, none⟩, .mouseScroll 1 0 0 1 1 ⟨some 1, none⟩,
   .mouseScroll 2 0 0 1 1 ⟨some 1, none⟩, .mouseScroll 3 0 0 1 1 ⟨some 1, none⟩,
   .mouseScroll 4 0 0 1 1 ⟨some 1, none⟩]

/-- Key 7 pressed at 0, pressed again at 1 with no intervening release,
released at 2. -/
def heldKeyBatch : List InputEvent :=
  [.keyPress 0 7 ctx0, .keyPress 1 7 ctx0, .keyRelease 2 7 ctx0]

/-- Two press/release pairs (keys 1 and 2) whose presses are 10 s apart: the
second candidate has a predecessor more than 1.5 s earlier and no successor. -/
def twoPairsFarApartBatch : List InputEvent :=
  [.keyPress 0 1 ctx0, .keyRelease (1/10) 1 ctx0,
   .keyPress 10 2 ctx0, .keyRelease (101/10) 2 ctx0]

/-- Three press/release pairs at presses 0, 2, 4 — every context has an absent
control name, and the two non-isolated candidates are 2 s apart. -/
def absentControlsBatch : List InputEvent :=
  [.keyPress 0 1 ctx0, .keyRelease (1/2) 1 ctx0,
   .keyPress 2 2 ctx0, .keyRelease (5/2) 2 ctx0,
   .keyPress 4 3 ctx0, .keyRelease (9/2) 3 ctx0]

/-- Two press/release pairs (keys 1 and 2) with presses 1 s apart, every
context carrying an absent control name: neither candidate is isolated and the
gap between them is within the typing threshold. -/
def nearPairsBatch : List InputEvent :=
  [.keyPress 0 1 ctx0, .keyPress 1 2 ctx0, .keyRelease 2 1 ctx0, .keyRelease 3 2 ctx0]

/-- No event object may appear in two different interactions of a list. -/
def PairwiseEventDisjoint (l : List Interaction) : Prop :=
  l.Pairwise fun a b => ∀ e ∈ a.input_events_associated, e ∉ b.input_events_associated

instance : DecidableRel fun a b : Interaction =>
    ∀ e ∈ a.input_events_associated, e ∉ b.input_events_associated :=
  fun _ b => List.decidableBAll (· ∉ b.input_events_associated) _

instance (l : List Interaction) : Decidable (PairwiseEventDisjoint l) :=
  List.instDecidablePairwise l

/-! ### Claim C1 -/

unseal Rat.sub Rat.mul Rat.inv Rat.add in
/-- C1: evaluating the code at the failing input. For two press/release pairs
of the same button at identical coordinates with presses 1 s (> 0.5 s) apart,
`interactions_from_mouse_recording` emits one Click for the first pair and one
DoubleClick reusing both pairs — not the two Clicks the claim states. The
single-click candidates are never removed from `related_click_events` before
the double-click splice, and the predecessor check compares the signed (always
negative) timestamp difference against the 0.5 s window. -/
theorem mouse_two_separated_clicks_eval :
    interactions_from_mouse_recording twoClicksBatch =
      [⟨.MOUSE_CLICKED,
        [.mouseClick 0 5 5 0 true ctx0, .mouseClick (1/10) 5 5 0 false ctx0], 0, 1/10⟩,
       ⟨.MOUSE_DOUBLE_CLICKED,
        [.mouseClick 0 5 5 0 true ctx0, .mouseClick (1/10) 5 5 0 false ctx0,
         .mouseClick 1 5 5 0 true ctx0, .mouseClick (11/10) 5 5 0 false ctx0], 0, 11/10⟩] := by
  decide

/-! ### Claim C2 -/

unseal Rat.sub Rat.mul Rat.inv Rat.add in
/-- C2: evaluating the code at the failing input. The Click and the
DoubleClick emitted for `twoClicksBatch` share the first press/release pair,
so the emitted interactions are not pairwise event-disjoint. -/
theorem mouse_interactions_share_events :
    ¬ PairwiseEventDisjoint (interactions_from_mouse_recording twoClicksBatch) := by
  decide

/-! ### Claim C3 -/

unseal Rat.sub Rat.mul Rat.inv Rat.add in
/-- C3: evaluating the code at the failing input. A batch of five scroll
events with constant sign(dx), sign(dy) and control produces no interaction at
all: the accumulated run is only emitted when a later, different scroll event
breaks it, and the loop ends without flushing `current_scroll_sequence`. -/
theorem mouse_trailing_scroll_run_dropped :
    interactions_from_mouse_recording fiveScrollsBatch = [] := by
  decide

/-! ### Claim C4 -/

unseal Rat.sub Rat.mul Rat.inv Rat.add in
/-- C4: evaluating the code at the failing input. For press, re-press, release
of the same key the function emits a KeyHeld interaction over the original
press and the release, but also a spurious SingleKeyPress pairing the re-press
with the same release: the neutralising write `recording[j] = None` uses the
relative index `j` of the inner scan (here overwriting index 0, the original
press) instead of the re-press's absolute index, so the re-press is
reprocessed. -/
theorem keyboard_held_key_eval :
    interactions_from_keyboard_recording heldKeyBatch =
      [⟨.SINGLE_KEY_HELD, [.keyPress 0 7 ctx0, .keyRelease 2 7 ctx0], 0, 2⟩,
       ⟨.SINGLE_KEY_PRESSED, [.keyPress 1 7 ctx0, .keyRelease 2 7 ctx0], 1, 2⟩] := by
  decide

/-! ### Claim C5 -/

unseal Rat.sub Rat.mul Rat.inv Rat.add in
/-- C5: evaluating the code at the failing input. Of two press/release
candidates 10 s apart, only the first becomes a SingleKeyPress; the second —
whose predecessor is more than 1.5 s earlier and which has no successor — is
disqualified because the predecessor check compares the signed (negative)
difference against 1.5 s, and it is then silently dropped (no typing run is
spliced for a lone remaining candidate). -/
theorem keyboard_separated_press_pairs_eval :
    interactions_from_keyboard_recording twoPairsFarApartBatch =
      [⟨.SINGLE_KEY_PRESSED, [.keyPress 0 1 ctx0, .keyRelease (1/10) 1 ctx0], 0, 1/10⟩] := by
  decide

/-! ### Claim C8 -/

/-- C8: constructing an Interaction from an empty event sequence fails fast
(no object is produced), while construction from any non-empty list succeeds. -/
theorem interaction_construction_empty_fails :
    (∀ ty : InteractionType, Interaction.make ty [] = none) ∧
      ∀ (ty : InteractionType) (e : InputEvent) (rest : List InputEvent),
        (Interaction.make ty (e :: rest)).isSome = true :=
  ⟨fun _ => rfl, fun _ _ _ => rfl⟩

/-! ### Claim C9 -/

/-- Draining after a drain followed by any sequence of appends returns exactly
the appended events. -/
theorem appendAll_recording (r : InputRecorder) (es : List InputEvent) :
    (r.appendAll es).recording = r.recording ++ es := by
  induction es generalizing r with
  | nil => simp [InputRecorder.appendAll]
  | cons e es ih =>
    simp [InputRecorder.appendAll, InputRecorder.appendEvent] at ih ⊢
    rw [ih]
    simp

/-- C9: `pop_recording` leaves the buffer empty, and a drain following any
sequence of appends to a drained recorder returns exactly those events in
append order and empties the buffer again — so no event is returned by two
drains and no buffered event is lost. -/
theorem pop_recording_drains_buffer (r : InputRecorder) (es : List InputEvent) :
    (r.pop_recording.2).recording = [] ∧
      ((r.pop_recording.2).appendAll es).pop_recording.1 = es ∧
      ((r.pop_recording.2).appendAll es).pop_recording.2.recording = [] := by
  refine ⟨rfl, ?_, rfl⟩
  simp [InputRecorder.pop_recording, appendAll_recording]

/-! ### Claim C10 -/

unseal Rat.sub Rat.mul Rat.inv Rat.add in
/-- C10 counterexample: a batch in which every non-isolated candidate has an
absent control name, yet the function does emit a Typing interaction — the
break-index loop also fires on a press gap above 1.5 s, not only on a control
change, so the claim's all-absent-controls condition alone does not prevent
typing output. -/
theorem typing_emitted_with_absent_controls :
    ((keyboard_remaining_candidates absentControlsBatch).all
        fun g => (groupPress g).context.closest_ctrl_name = none) ∧
      ((interactions_from_keyboard_recording absentControlsBatch).countP
        fun it => it.interaction_type == .KEYBOARD_TYPING) = 1 := by
  constructor
  · decide
  · decide

/-! ### Claim C7 -/

/-- C7: a batch holding exactly one press and one later release of the same
button at different coordinates yields exactly one Drag interaction holding
those two events (the press is matched to the first subsequent same-button
release — here the only one). -/
theorem single_press_later_release_drag (t1 t2 : ℚ) (x1 y1 x2 y2 : ℤ) (b : Nat)
    (c1 c2 : Context) (hlt : t1 < t2) (hne : (x1, y1) ≠ (x2, y2)) :
    interactions_from_mouse_recording
        [.mouseClick t1 x1 y1 b true c1, .mouseClick t2 x2 y2 b false c2] =
      [⟨.MOUSE_DRAGGED,
        [.mouseClick t1 x1 y1 b true c1, .mouseClick t2 x2 y2 b false c2], t1, t2⟩] := by
  have hle : tsLE (.mouseClick t1 x1 y1 b true c1) (.mouseClick t2 x2 y2 b false c2) := by
    simp [tsLE, InputEvent.timestamp]
    exact hlt.le
  simp [interactions_from_mouse_recording, sortRecording, List.insertionSort,
    List.orderedInsert, hle, mouseLoop, clickStep, scrollStep, List.find?,
    isMatchingRelease, InputEvent.coords, hne, emit, Interaction.make,
    InputEvent.timestamp, mouseClicksPhase, mouseDoublesPhase, single_click_indexes,
    double_click_start_indexes, initMouseState, List.getLastD]

/-- Witness: the drag theorem applied at a concrete input. -/
theorem single_press_later_release_drag_witness :
    interactions_from_mouse_recording
        [.mouseClick 0 0 0 0 true ctx0, .mouseClick 1 5 5 0 false ctx0] =
      [⟨.MOUSE_DRAGGED,
        [.mouseClick 0 0 0 0 true ctx0, .mouseClick 1 5 5 0 false ctx0], 0, 1⟩] :=
  single_press_later_release_drag 0 1 0 0 5 5 0 ctx0 ctx0 (by norm_num) (by decide)

/-! ### Helper lemmas about emission and timestamps -/

theorem mem_emit {out : List Interaction} {ty : InteractionType} {evs : List InputEvent}
    {it : Interaction} :
    it ∈ emit out ty evs ↔ it ∈ out ∨ Interaction.make ty evs = some it := by
  cases evs <;> simp [emit, Interaction.make, eq_comm]

theorem make_some_fields {ty : InteractionType} {evs : List InputEvent} {it : Interaction}
    (h : Interaction.make ty evs = some it) :
    it.interaction_type = ty ∧ it.input_events_associated = evs ∧
      it.interaction_start_timestamp = (evs.headD dummyEvent).timestamp ∧
      it.interaction_end_timestamp = (evs.getLastD dummyEvent).timestamp ∧ evs ≠ [] := by
  cases evs with
  | nil => simp [Interaction.make] at h
  | cons e rest =>
    simp only [Interaction.make, Option.some_inj] at h
    subst h
    simp

theorem emit_good {out : List Interaction} {ty : InteractionType} {evs : List InputEvent}
    (hout : ∀ it ∈ out, GoodI it)
    (hts : (evs.headD dummyEvent).timestamp ≤ (evs.getLastD dummyEvent).timestamp) :
    ∀ it ∈ emit out ty evs, GoodI it := by
  intro it hit
  rcases mem_emit.mp hit with h | h
  · exact hout it h
  · obtain ⟨-, he, hs, hE, hne⟩ := make_some_fields h
    exact ⟨by rw [he]; exact hne, by rw [he, hs], by rw [he, hE], by rw [hs, hE]; exact hts⟩

theorem le_getLastD_of_le_all {l : List InputEvent} (hl : l.Pairwise tsLE) (x : InputEvent)
    (hx : ∀ y ∈ l, x.timestamp ≤ y.timestamp) : x.timestamp ≤ (l.getLastD x).timestamp := by
  induction l generalizing x with
  | nil => exact le_refl _
  | cons a t ih =>
    rw [List.getLastD_cons]
    exact (hx a (by simp)).trans
      (ih (List.pairwise_cons.mp hl).2 a fun y hy => (List.pairwise_cons.mp hl).1 y hy)

theorem headD_le_getLastD {l : List InputEvent} (hl : l.Pairwise tsLE) (d : InputEvent) :
    (l.headD d).timestamp ≤ (l.getLastD d).timestamp := by
  cases l with
  | nil => exact le_refl _
  | cons a t =>
    show a.timestamp ≤ ((a :: t).getLastD d).timestamp
    rw [List.getLastD_cons]
    exact le_getLastD_of_le_all (List.pairwise_cons.mp hl).2 a
      fun y hy => (List.pairwise_cons.mp hl).1 y hy

theorem head_le_of_mem {e : InputEvent} {rest : List InputEvent}
    (hp : (e :: rest).Pairwise tsLE) {r : InputEvent} (hr : r ∈ e :: rest) :
    e.timestamp ≤ r.timestamp := by
  rcases List.mem_cons.mp hr with rfl | hr
  · exact le_refl _
  · exact (List.pairwise_cons.mp hp).1 r hr

theorem getD_mem_or (related : List (List InputEvent)) (i : Nat) :
    related.getD i [] ∈ related ∨ related.getD i [] = [] := by
  by_cases hi : i < related.length
  · exact Or.inl (List.getD_eq_getElem related [] hi ▸ List.getElem_mem hi)
  · right
    rw [List.getD_eq_getElem?_getD, List.getElem?_eq_none (by omega)]
    rfl

theorem goodGroup_emit_good {out : List Interaction} {ty : InteractionType}
    {g : List InputEvent} (hout : ∀ it ∈ out, GoodI it) (hg : GoodGroup g ∨ g = []) :
    ∀ it ∈ emit out ty g, GoodI it := by
  apply emit_good hout
  rcases hg with ⟨p, r, rfl, hle⟩ | rfl
  · simpa using hle
  · simp

/-! ### The mouse loop invariant -/

theorem MouseInv.tail {st : MouseState} {e : InputEvent} {rest : List InputEvent}
    (h : MouseInv st (e :: rest)) : MouseInv st rest :=
  ⟨h.ints, h.groups, h.order, fun t ht s hs => h.bound t ht s (by simp [hs]),
   h.seq, fun c hc s hs => h.seqBound c hc s (by simp [hs])⟩

theorem clickStep_inv {e : InputEvent} {rest : List InputEvent} {st : MouseState}
    (hp : (e :: rest).Pairwise tsLE) (h : MouseInv st (e :: rest)) :
    MouseInv (clickStep e (e :: rest) st) (e :: rest) := by
  cases e with
  | mouseScroll t x y dx dy c => exact h
  | keyPress t k c => exact h
  | keyRelease t k c => exact h
  | mouseClick t x y btn pressed c =>
    cases pressed with
    | false => exact h
    | true =>
      simp only [clickStep]
      cases hfind :
          (InputEvent.mouseClick t x y btn true c :: rest).find? (isMatchingRelease btn) with
      | none => exact h
      | some subseq =>
        dsimp only
        have hsub : subseq ∈ InputEvent.mouseClick t x y btn true c :: rest :=
          List.mem_of_find?_eq_some hfind
        have hle : (InputEvent.mouseClick t x y btn true c).timestamp ≤ subseq.timestamp :=
          head_le_of_mem hp hsub
        by_cases hco : (InputEvent.mouseClick t x y btn true c).coords ≠ subseq.coords
        · rw [if_pos hco]
          exact ⟨goodGroup_emit_good h.ints (Or.inl ⟨_, _, rfl, hle⟩),
            h.groups, h.order, h.bound, h.seq, h.seqBound⟩
        · rw [if_neg hco]
          refine ⟨h.ints, ?_, ?_, ?_, h.seq, h.seqBound⟩
          · intro g hg
            rcases List.mem_append.mp hg with hg | hg
            · exact h.groups g hg
            · rcases List.mem_singleton.mp hg with rfl
              exact ⟨_, _, rfl, hle⟩
          · rw [List.map_append]
            refine List.pairwise_append.mpr ⟨h.order, by simp, ?_⟩
            intro a ha b hb
            simp only [List.map_cons, List.map_nil, List.mem_singleton] at hb
            subst hb
            exact h.bound a ha _ (List.mem_cons_self _ _)
          · intro u hu s hs
            rw [List.map_append] at hu
            rcases List.mem_append.mp hu with hu | hu
            · exact h.bound u hu s hs
            · simp only [List.map_cons, List.map_nil, List.mem_singleton] at hu
              subst hu
              exact head_le_of_mem hp hs

theorem scrollStep_inv {e : InputEvent} {rest : List InputEvent} {st : MouseState}
    (hp : (e :: rest).Pairwise tsLE) (h : MouseInv st (e :: rest)) :
    MouseInv (scrollStep e st) rest := by
  have htail : ∀ s ∈ rest, e.timestamp ≤ s.timestamp :=
    fun s hs => (List.pairwise_cons.mp hp).1 s hs
  cases e with
  | mouseClick t x y b pr c => exact h.tail
  | keyPress t k c => exact h.tail
  | keyRelease t k c => exact h.tail
  | mouseScroll t x y dx dy c =>
    simp only [scrollStep]
    split
    · -- the event extends the current scroll run
      refine ⟨h.ints, h.groups, h.order,
        fun u hu s hs => h.bound u hu s (by simp [hs]), ?_, ?_⟩
      · refine List.pairwise_append.mpr ⟨h.seq, by simp, ?_⟩
        intro a ha b hb
        rcases List.mem_singleton.mp hb with rfl
        exact h.seqBound a ha _ (by simp)
      · intro u hu s hs
        rcases List.mem_append.mp hu with hu | hu
        · exact h.seqBound u hu s (by simp [hs])
        · rcases List.mem_singleton.mp hu with rfl
          exact htail s hs
    · -- run break: possibly emit the finished run, then restart
      split
      · -- the accumulated run was non-empty and is emitted
        refine ⟨emit_good h.ints (headD_le_getLastD h.seq dummyEvent), h.groups, h.order,
          fun u hu s hs => h.bound u hu s (by simp [hs]), by simp, ?_⟩
        intro u hu s hs
        rcases List.mem_singleton.mp hu with rfl
        exact htail s hs
      · refine ⟨h.ints, h.groups, h.order,
          fun u hu s hs => h.bound u hu s (by simp [hs]), by simp, ?_⟩
        intro u hu s hs
        rcases List.mem_singleton.mp hu with rfl
        exact htail s hs

theorem mouseLoop_inv : ∀ (suffix : List InputEvent) (st : MouseState),
    suffix.Pairwise tsLE → MouseInv st suffix → MouseInv (mouseLoop suffix st) [] := by
  intro suffix
  induction suffix with
  | nil => exact fun st _ h => h
  | cons e rest ih =>
    intro st hp h
    exact ih _ (List.pairwise_cons.mp hp).2 (scrollStep_inv hp (clickStep_inv hp h))

/-! ### The mouse post-loop phases preserve well-timestampedness -/

theorem foldl_emit_clicked_good (idxs : List Nat) (related : List (List InputEvent)) :
    ∀ out : List Interaction, (∀ it ∈ out, GoodI it) → (∀ g ∈ related, GoodGroup g) →
      ∀ it ∈ idxs.foldl (fun acc i => emit acc .MOUSE_CLICKED (related.getD i [])) out,
        GoodI it := by
  induction idxs with
  | nil => exact fun out hout _ it hit => hout it hit
  | cons i idxs ih =>
    intro out hout hgr it hit
    refine ih _ ?_ hgr it hit
    apply goodGroup_emit_good hout
    rcases getD_mem_or related i with hm | hm
    · exact Or.inl (hgr _ hm)
    · exact Or.inr hm

theorem double_idx_lt {n i : Nat} (hi : i ∈ double_click_start_indexes n) : i + 1 < n := by
  simp only [double_click_start_indexes, List.mem_filter, Bool.and_eq_true,
    decide_eq_true_eq] at hi
  exact hi.2.2

theorem concat_groups_good {out : List Interaction} {related : List (List InputEvent)}
    (hout : ∀ it ∈ out, GoodI it) (hgr : ∀ g ∈ related, GoodGroup g)
    (hord : (related.map groupPressTs).Pairwise (· ≤ ·)) {i : Nat}
    (hi : i + 1 < related.length) :
    ∀ it ∈ emit out .MOUSE_DOUBLE_CLICKED (related.getD i [] ++ related.getD (i + 1) []),
      GoodI it := by
  apply emit_good hout
  have hi0 : i < related.length := by omega
  rw [List.getD_eq_getElem related [] hi0, List.getD_eq_getElem related [] hi]
  obtain ⟨p1, r1, hg1, hle1⟩ := hgr _ (List.getElem_mem hi0)
  obtain ⟨p2, r2, hg2, hle2⟩ := hgr _ (List.getElem_mem hi)
  have hpp : groupPressTs related[i] ≤ groupPressTs related[i + 1] := by
    have := List.pairwise_iff_getElem.mp hord i (i + 1)
      (by simpa using hi0) (by simpa using hi) (by omega)
    simpa using this
  rw [hg1, hg2] at hpp ⊢
  simp only [groupPressTs, groupPress, List.headD] at hpp
  simpa using hpp.trans hle2

theorem foldl_emit_doubles_good (idxs : List Nat) (related : List (List InputEvent)) :
    ∀ out : List Interaction, (∀ it ∈ out, GoodI it) → (∀ g ∈ related, GoodGroup g) →
      (related.map groupPressTs).Pairwise (· ≤ ·) →
      (∀ i ∈ idxs, i + 1 < related.length) →
      ∀ it ∈ idxs.foldl
          (fun acc i => emit acc .MOUSE_DOUBLE_CLICKED
            (related.getD i [] ++ related.getD (i + 1) [])) out,
        GoodI it := by
  induction idxs with
  | nil => exact fun out hout _ _ _ it hit => hout it hit
  | cons i idxs ih =>
    intro out hout hgr hord hidx it hit
    refine ih _ ?_ hgr hord (fun j hj => hidx j (by simp [hj])) it hit
    exact concat_groups_good hout hgr hord (hidx i (by simp))

/-- Every interaction emitted by the mouse pipeline is well-timestamped. -/
theorem interactions_from_mouse_recording_good (recording : List InputEvent) :
    ∀ it ∈ interactions_from_mouse_recording recording, GoodI it := by
  unfold interactions_from_mouse_recording
  split
  · simp
  · have hsort : (sortRecording recording).Pairwise tsLE :=
      List.sorted_insertionSort tsLE recording
    have hinv := mouseLoop_inv (sortRecording recording) initMouseState hsort
      ⟨by simp [initMouseState], by simp [initMouseState], by simp [initMouseState],
       by simp [initMouseState], by simp [initMouseState], by simp [initMouseState]⟩
    intro it hit
    exact foldl_emit_doubles_good _ _ _
      (foldl_emit_clicked_good _ _ _ hinv.ints hinv.groups)
      hinv.groups hinv.order (fun i hi => double_idx_lt hi) it hit

/-! ### The keyboard loop invariant -/

theorem make_pair_typed {ty : InteractionType} {p r : InputEvent} {it : Interaction}
    (h : Interaction.make ty [p, r] = some it) (hle : p.timestamp ≤ r.timestamp) :
    GoodI it ∧ it.interaction_type = ty := by
  obtain ⟨hty, he, hs, hE, -⟩ := make_some_fields h
  refine ⟨⟨by rw [he]; simp, by rw [he, hs], by rw [he, hE], ?_⟩, hty⟩
  rw [hs, hE]
  simpa using hle

theorem pairwise_getElem?_ts {l : List InputEvent} (hl : l.Pairwise tsLE) {i j : Nat}
    {a b : InputEvent} (hij : i < j) (ha : l[i]? = some a) (hb : l[j]? = some b) :
    a.timestamp ≤ b.timestamp := by
  obtain ⟨hi, rfl⟩ := List.getElem?_eq_some_iff.mp ha
  obtain ⟨hj, rfl⟩ := List.getElem?_eq_some_iff.mp hb
  exact List.pairwise_iff_getElem.mp hl i j hi hj hij

theorem pairwise_le_of_const {l : List ℚ} {c : ℚ} (h : ∀ x ∈ l, x = c) :
    l.Pairwise (· ≤ ·) := by
  induction l with
  | nil => exact List.Pairwise.nil
  | cons a t ih =>
    refine List.pairwise_cons.mpr ⟨fun b hb => ?_, ih fun x hx => h x (by simp [hx])⟩
    rw [h a (by simp), h b (by simp [hb])]

/-- The inner scan only overwrites entries of the event list with `None`. -/
theorem keyScan_arr (p : InputEvent) (key : Nat) :
    ∀ (slice : List (Option InputEvent)) (j : Nat) (st : KeyboardState),
      (keyScan p key slice j st).arr.length = st.arr.length ∧
      ∀ j' e, (keyScan p key slice j st).arr.get? j' = some (some e) →
        st.arr.get? j' = some (some e) := by
  intro slice
  induction slice with
  | nil => exact fun j st => ⟨rfl, fun _ _ h => h⟩
  | cons oe rest ih =>
    intro j st
    cases oe with
    | none => exact ih (j + 1) st
    | some subseq =>
      simp only [keyScan]
      by_cases h1 : isKeyReleaseOf key subseq
      · rw [if_pos h1]
        by_cases h2 : st.key_being_held <;> simp [h2]
      · rw [if_neg h1]
        by_cases h3 : isKeyPressOf key subseq
        · rw [if_pos h3]
          obtain ⟨hlen, hsub⟩ := ih (j + 1)
            { st with arr := st.arr.set j none, key_being_held := true }
          refine ⟨by rw [hlen]; simp, fun j' e hj' => ?_⟩
          have := hsub j' e hj'
          simp only [List.get?_eq_getElem?] at this ⊢
          rw [List.getElem?_set] at this
          by_cases hjj : j = j'
          · subst hjj
            split at this
            · exact absurd this (by split at this <;> simp_all)
            · omega
          · rwa [if_neg hjj] at this
        · rw [if_neg h3]
          exact ih (j + 1) st

/-- What the inner scan appends: at most one held-key interaction built from
the press and a release found in the slice, or at most one candidate pair. -/
theorem keyScan_out (p : InputEvent) (key : Nat) :
    ∀ (slice : List (Option InputEvent)) (j : Nat) (st : KeyboardState),
      ∃ tl1 tl2,
        (keyScan p key slice j st).interactions = st.interactions ++ tl1 ∧
        (keyScan p key slice j st).related_keypress_events =
          st.related_keypress_events ++ tl2 ∧
        (∀ it ∈ tl1, ∃ e, (some e) ∈ slice ∧
          Interaction.make .SINGLE_KEY_HELD [p, e] = some it) ∧
        (∀ g ∈ tl2, ∃ e, (some e) ∈ slice ∧ g = [p, e]) := by
  intro slice
  induction slice with
  | nil => exact fun j st => ⟨[], [], by simp [keyScan], by simp [keyScan], by simp, by simp⟩
  | cons oe rest ih =>
    intro j st
    cases oe with
    | none =>
      obtain ⟨tl1, tl2, h1, h2, h3, h4⟩ := ih (j + 1) st
      exact ⟨tl1, tl2, h1, h2,
        fun it hit => by obtain ⟨e, he, hm⟩ := h3 it hit; exact ⟨e, by simp [he], hm⟩,
        fun g hg => by obtain ⟨e, he, hm⟩ := h4 g hg; exact ⟨e, by simp [he], hm⟩⟩
    | some subseq =>
      simp only [keyScan]
      by_cases h1 : isKeyReleaseOf key subseq
      · rw [if_pos h1]
        by_cases h2 : st.key_being_held
        · rw [if_pos h2]
          exact ⟨(Interaction.make .SINGLE_KEY_HELD [p, subseq]).toList, [],
            rfl, by simp, fun it hit => ⟨subseq, by simp,
              by rcases hm : Interaction.make .SINGLE_KEY_HELD [p, subseq] with - | x <;>
                simp [hm] at hit ⊢; rw [hit]⟩, by simp⟩
        · rw [if_neg h2]
          exact ⟨[], [[p, subseq]], by simp, rfl, by simp,
            fun g hg => ⟨subseq, by simp, by simpa using hg⟩⟩
      · rw [if_neg h1]
        by_cases h3 : isKeyPressOf key subseq
        · rw [if_pos h3]
          obtain ⟨tl1, tl2, hh1, hh2, hh3, hh4⟩ := ih (j + 1)
            { st with arr := st.arr.set j none, key_being_held := true }
          exact ⟨tl1, tl2, hh1, hh2,
            fun it hit => by obtain ⟨e, he, hm⟩ := hh3 it hit; exact ⟨e, by simp [he], hm⟩,
            fun g hg => by obtain ⟨e, he, hm⟩ := hh4 g hg; exact ⟨e, by simp [he], hm⟩⟩
        · rw [if_neg h3]
          obtain ⟨tl1, tl2, hh1, hh2, hh3, hh4⟩ := ih (j + 1) st
          exact ⟨tl1, tl2, hh1, hh2,
            fun it hit => by obtain ⟨e, he, hm⟩ := hh3 it hit; exact ⟨e, by simp [he], hm⟩,
            fun g hg => by obtain ⟨e, he, hm⟩ := hh4 g hg; exact ⟨e, by simp [he], hm⟩⟩

theorem KbInv.succ {orig : List InputEvent} {i : Nat} {st : KeyboardState}
    (h : KbInv orig i st) : KbInv orig (i + 1) st :=
  ⟨h.arrLen, h.arrOrig, h.ints, h.groups, h.order,
   fun t ht k e hk he => h.bound t ht k e (by omega) he⟩

theorem keyboardStep_inv {orig : List InputEvent} {i : Nat} {st : KeyboardState}
    (hsort : orig.Pairwise tsLE) (h : KbInv orig i st) :
    KbInv orig (i + 1) (keyboardStep i st) := by
  unfold keyboardStep
  cases harr : st.arr.getD i none with
  | none => exact h.succ
  | some e =>
    have he : st.arr.get? i = some (some e) := by
      rw [List.get?_eq_getElem?]
      rw [List.getD_eq_getElem?_getD] at harr
      cases hx : st.arr[i]? with
      | none => rw [hx] at harr; simp at harr
      | some oe => rw [hx] at harr; simp at harr; rw [harr]
    have horig : orig.get? i = some e := h.arrOrig i e he
    cases e with
    | mouseClick t x y b pr c => exact h.succ
    | mouseScroll t x y dx dy c => exact h.succ
    | keyRelease t k c => exact h.succ
    | keyPress t k c =>
      set E := InputEvent.keyPress t k c with hE
      have hp : ∀ e', (some e') ∈ st.arr.drop (i + 1) → E.timestamp ≤ e'.timestamp := by
        intro e' hmem
        obtain ⟨m, hm⟩ := List.getElem?_of_mem hmem
        rw [List.getElem?_drop] at hm
        have := h.arrOrig (i + 1 + m) e' (by rw [List.get?_eq_getElem?]; exact hm)
        refine pairwise_getElem?_ts hsort (by omega : i < i + 1 + m) ?_ ?_
        · rw [← List.get?_eq_getElem?]; exact horig
        · rw [← List.get?_eq_getElem?]; exact this
      obtain ⟨hlen, hsub⟩ := keyScan_arr E k (st.arr.drop (i + 1)) 0 st
      obtain ⟨tl1, tl2, h1, h2, h3, h4⟩ := keyScan_out E k (st.arr.drop (i + 1)) 0 st
      refine ⟨hlen.trans h.arrLen, fun j e' hj => h.arrOrig j e' (hsub j e' hj), ?_, ?_, ?_, ?_⟩
      · rw [h1]
        intro it hit
        rcases List.mem_append.mp hit with hit | hit
        · exact h.ints it hit
        · obtain ⟨e', he', hm⟩ := h3 it hit
          obtain ⟨hg, hty⟩ := make_pair_typed hm (hp e' he')
          exact ⟨hg, by rw [hty]; intro hc; cases hc⟩
      · rw [h2]
        intro g hg
        rcases List.mem_append.mp hg with hg | hg
        · exact h.groups g hg
        · obtain ⟨e', he', rfl⟩ := h4 g hg
          exact ⟨_, _, rfl, hp e' he'⟩
      · rw [h2, List.map_append]
        refine List.pairwise_append.mpr ⟨h.order, ?_, ?_⟩
        · refine pairwise_le_of_const (c := E.timestamp) ?_
          intro x hx
          obtain ⟨g, hg, rfl⟩ := List.mem_map.mp hx
          obtain ⟨e', -, rfl⟩ := h4 g hg
          rfl
        · intro a ha b hb
          obtain ⟨g, hg, rfl⟩ := List.mem_map.mp hb
          obtain ⟨e', -, rfl⟩ := h4 g hg
          exact h.bound a ha i E (le_refl i) horig
      · rw [h2, List.map_append]
        intro u hu k' e'' hk' he''
        rcases List.mem_append.mp hu with hu | hu
        · exact h.bound u hu k' e'' (by omega) he''
        · obtain ⟨g, hg, rfl⟩ := List.mem_map.mp hu
          obtain ⟨e', -, rfl⟩ := h4 g hg
          show E.timestamp ≤ e''.timestamp
          refine pairwise_getElem?_ts hsort (by omega : i < k') ?_ ?_
          · rw [← List.get?_eq_getElem?]; exact horig
          · rw [← List.get?_eq_getElem?]; exact he''

theorem keyboardLoop_inv {orig : List InputEvent} (hsort : orig.Pairwise tsLE) :
    ∀ (fuel i : Nat) (st : KeyboardState), KbInv orig i st →
      ∃ m, KbInv orig m (keyboardLoop fuel i st) := by
  intro fuel
  induction fuel with
  | zero => exact fun i st h => ⟨i, h⟩
  | succ fuel ih => exact fun i st h => ih (i + 1) _ (keyboardStep_inv hsort h)

/-! ### The keyboard post-loop phases preserve well-timestampedness -/

theorem emit_typed_good {out : List Interaction} {ty : InteractionType}
    {g : List InputEvent}
    (hout : ∀ it ∈ out, GoodI it ∧ it.interaction_type ≠ .KEYBOARD_TYPING)
    (hty : ty ≠ .KEYBOARD_TYPING) (hg : GoodGroup g ∨ g = []) :
    ∀ it ∈ emit out ty g, GoodI it ∧ it.interaction_type ≠ .KEYBOARD_TYPING := by
  intro it hit
  rcases mem_emit.mp hit with h | h
  · exact hout it h
  · rcases hg with ⟨p, r, rfl, hle⟩ | rfl
    · obtain ⟨hgood, htyp⟩ := make_pair_typed h hle
      exact ⟨hgood, by rw [htyp]; exact hty⟩
    · simp [Interaction.make] at h

theorem popIndividuals_inv (idxs : List Nat) :
    ∀ (rel : List (List InputEvent)) (out : List Interaction),
      (∀ g ∈ rel, GoodGroup g) → (rel.map groupPressTs).Pairwise (· ≤ ·) →
      (∀ it ∈ out, GoodI it ∧ it.interaction_type ≠ .KEYBOARD_TYPING) →
      (∀ g ∈ (popIndividuals idxs (rel, out)).1, GoodGroup g) ∧
        ((popIndividuals idxs (rel, out)).1.map groupPressTs).Pairwise (· ≤ ·) ∧
        (∀ it ∈ (popIndividuals idxs (rel, out)).2,
          GoodI it ∧ it.interaction_type ≠ .KEYBOARD_TYPING) := by
  induction idxs with
  | nil => exact fun rel out h1 h2 h3 => ⟨h1, h2, h3⟩
  | cons i idxs ih =>
    intro rel out h1 h2 h3
    refine ih (rel.eraseIdx i) _ ?_ ?_ ?_
    · exact fun g hg => h1 g ((List.eraseIdx_sublist rel i).mem hg)
    · exact List.Pairwise.sublist ((List.eraseIdx_sublist rel i).map groupPressTs) h2
    · refine emit_typed_good h3 (by intro hc; cases hc) ?_
      rcases getD_mem_or rel i with hm | hm
      · exact Or.inl (h1 _ hm)
      · exact Or.inr hm

theorem typingSplices_good_aux (rel : List (List InputEvent))
    (hord : (rel.map groupPressTs).Pairwise (· ≤ ·)) (breaks : List Nat) :
    ∀ (ks : List Nat) (out : List Interaction), (∀ it ∈ out, GoodI it) →
      ∀ it ∈ ks.foldl
          (fun acc k =>
            emit acc .KEYBOARD_TYPING
              (((rel.drop (breaks.getD k 0)).take
                (breaks.getD (k + 1) 0 - breaks.getD k 0)).map groupPress)) out,
        GoodI it := by
  intro ks
  induction ks with
  | nil => exact fun out hout it hit => hout it hit
  | cons k ks ih =>
    intro out hout it hit
    refine ih _ ?_ it hit
    apply emit_good hout
    have hsub : List.Sublist ((rel.drop (breaks.getD k 0)).take
        (breaks.getD (k + 1) 0 - breaks.getD k 0)) rel :=
      (List.take_sublist _ _).trans (List.drop_sublist _ _)
    have hslice : List.Pairwise tsLE
        (((rel.drop (breaks.getD k 0)).take
          (breaks.getD (k + 1) 0 - breaks.getD k 0)).map groupPress) := by
      have h2 := List.Pairwise.sublist (hsub.map groupPressTs) hord
      rw [List.pairwise_map] at h2 ⊢
      exact h2
    exact headD_le_getLastD hslice dummyEvent

theorem typingSplices_good {out : List Interaction} {rel : List (List InputEvent)}
    {breaks : List Nat} (hout : ∀ it ∈ out, GoodI it)
    (hord : (rel.map groupPressTs).Pairwise (· ≤ ·)) :
    ∀ it ∈ typingSplices out rel breaks, GoodI it :=
  typingSplices_good_aux rel hord breaks (List.range (breaks.length - 1)) out hout

/-- Every interaction emitted by the keyboard pipeline is well-timestamped and,
before the typing splices, has a non-typing type. -/
theorem interactions_from_keyboard_recording_good (recording : List InputEvent) :
    ∀ it ∈ interactions_from_keyboard_recording recording, GoodI it := by
  unfold interactions_from_keyboard_recording
  split
  · simp
  · have hsort : (sortRecording recording).Pairwise tsLE :=
      List.sorted_insertionSort tsLE recording
    have hinit : KbInv (sortRecording recording) 0
        ⟨(sortRecording recording).map some, [], [], false⟩ := by
      refine ⟨by simp, ?_, by simp, by simp, by simp, by simp⟩
      intro j e hj
      rw [List.get?_eq_getElem?, List.getElem?_map] at hj
      rw [List.get?_eq_getElem?]
      cases hx : (sortRecording recording)[j]? with
      | none => rw [hx] at hj; simp at hj
      | some y => rw [hx] at hj; simp at hj; rw [hj]
    obtain ⟨m, hinv⟩ := keyboardLoop_inv hsort _ 0 _ hinit
    obtain ⟨hgr, hord, hout⟩ := popIndividuals_inv _ _ _ hinv.groups hinv.order hinv.ints
    intro it hit
    have hmem : it ∈ typingSplices
        (popIndividuals (individual_key_press_indexes
          (keyboardLoop (sortRecording recording).length 0
            ⟨(sortRecording recording).map some, [], [], false⟩).related_keypress_events).reverse
          ((keyboardLoop (sortRecording recording).length 0
            ⟨(sortRecording recording).map some, [], [], false⟩).related_keypress_events,
           (keyboardLoop (sortRecording recording).length 0
            ⟨(sortRecording recording).map some, [], [], false⟩).interactions)).2
        (popIndividuals (individual_key_press_indexes
          (keyboardLoop (sortRecording recording).length 0
            ⟨(sortRecording recording).map some, [], [], false⟩).related_keypress_events).reverse
          ((keyboardLoop (sortRecording recording).length 0
            ⟨(sortRecording recording).map some, [], [], false⟩).related_keypress_events,
           (keyboardLoop (sortRecording recording).length 0
            ⟨(sortRecording recording).map some, [], [], false⟩).interactions)).1
        (typing_sequence_break_indexes
          (popIndividuals (individual_key_press_indexes
            (keyboardLoop (sortRecording recording).length 0
              ⟨(sortRecording recording).map some, [], [], false⟩).related_keypress_events).reverse
            ((keyboardLoop (sortRecording recording).length 0
              ⟨(sortRecording recording).map some, [], [], false⟩).related_keypress_events,
             (keyboardLoop (sortRecording recording).length 0
              ⟨(sortRecording recording).map some, [], [], false⟩).interactions)).1) :=
      (List.perm_insertionSort startLE _).mem_iff.mp hit
    exact typingSplices_good (fun u hu => (hout u hu).1) hord _ hmem

/-! ### Claim C6 -/

/-- C6: every Interaction emitted by `interactions_from_mouse_recording` and
`interactions_from_keyboard_recording` has a non-empty list of contributing
events, its start timestamp is the timestamp of its first contributing event,
its end timestamp is the timestamp of its last contributing event, and its
start timestamp is at most its end timestamp (`GoodI`). -/
theorem emitted_interactions_well_timestamped (recording : List InputEvent) :
    (∀ it ∈ interactions_from_mouse_recording recording, GoodI it) ∧
      ∀ it ∈ interactions_from_keyboard_recording recording, GoodI it :=
  ⟨interactions_from_mouse_recording_good recording,
   interactions_from_keyboard_recording_good recording⟩

unseal Rat.sub Rat.mul Rat.inv Rat.add in
/-- Witness: the timestamp invariant instantiated on the drag emitted for a
concrete two-event batch. -/
theorem emitted_interactions_well_timestamped_witness :
    GoodI ⟨.MOUSE_DRAGGED,
      [.mouseClick 0 0 0 0 true ctx0, .mouseClick 1 5 5 0 false ctx0], 0, 1⟩ :=
  (emitted_interactions_well_timestamped
      [.mouseClick 0 0 0 0 true ctx0, .mouseClick 1 5 5 0 false ctx0]).1
    ⟨.MOUSE_DRAGGED,
      [.mouseClick 0 0 0 0 true ctx0, .mouseClick 1 5 5 0 false ctx0], 0, 1⟩
    (by decide)

/-! ### Claim C10, amended -/

/-- When every remaining candidate has an absent control name and consecutive
candidates stay within the typing threshold, the break-index loop only records
the final index. -/
theorem typingBreaksAux_all_none (related : List (List InputEvent))
    (hctrl : ∀ g ∈ related, (groupPress g).context.closest_ctrl_name = none)
    (hgap : ∀ i : Nat, i + 1 < related.length →
      groupPressTs (related.getD (i + 1) []) - groupPressTs (related.getD i []) ≤
        KEYBOARD_MAX_TYPING_DELAY_SECONDS) :
    ∀ (fuel i : Nat), fuel + i = related.length → i < related.length →
      typingBreaksAux related related.length fuel i none = [related.length] := by
  intro fuel
  induction fuel with
  | zero => intro i h0 hi; omega
  | succ fuel ih =>
    intro i hsum hi
    simp only [typingBreaksAux]
    by_cases hlast : i = related.length - 1
    · rw [if_pos hlast]
      congr
      omega
    · rw [if_neg hlast]
      have hi1 : i + 1 < related.length := by omega
      have hc : (groupPress (related.getD i [])).context.closest_ctrl_name = none := by
        rcases getD_mem_or related i with hm | hm
        · exact hctrl _ hm
        · rw [hm]; rfl
      rw [if_neg (by
        rintro (hgt | hdiff)
        · exact absurd hgt (not_lt.mpr (hgap i hi1))
        · exact hdiff hc)]
      exact ih (i + 1) (by omega) hi1

theorem typing_break_indexes_all_none {related : List (List InputEvent)}
    (hctrl : ∀ g ∈ related, (groupPress g).context.closest_ctrl_name = none)
    (hgap : ∀ i : Nat, i + 1 < related.length →
      groupPressTs (related.getD (i + 1) []) - groupPressTs (related.getD i []) ≤
        KEYBOARD_MAX_TYPING_DELAY_SECONDS) :
    typing_sequence_break_indexes related =
      if related.length = 0 then [] else [related.length] := by
  by_cases h0 : related.length = 0
  · rw [if_pos h0]
    unfold typing_sequence_break_indexes
    rw [h0]
    rfl
  · rw [if_neg h0]
    exact typingBreaksAux_all_none related hctrl hgap related.length 0 (by omega) (by omega)

/-- The remaining-candidate component of the pop loop does not depend on the
interaction accumulator. -/
theorem popIndividuals_fst (idxs : List Nat) :
    ∀ (rel : List (List InputEvent)) (out1 out2 : List Interaction),
      (popIndividuals idxs (rel, out1)).1 = (popIndividuals idxs (rel, out2)).1 := by
  induction idxs with
  | nil => exact fun _ _ _ => rfl
  | cons i idxs ih => exact fun rel out1 out2 => ih (rel.eraseIdx i) _ _

/-- When the break list holds at most the final index, no typing interaction
is spliced. -/
theorem typingSplices_short {out : List Interaction} {rel : List (List InputEvent)}
    {breaks : List Nat} (h : breaks = [] ∨ ∃ b, breaks = [b]) :
    typingSplices out rel breaks = out := by
  rcases h with rfl | ⟨b, rfl⟩ <;> rfl

/-- C10, amended: the claim as stated fails (a press gap above 1.5 s also
records a break and splices a Typing interaction, control names aside); with
the additional hypothesis that consecutive remaining candidates stay within
the 1.5 s typing threshold, an all-absent set of control names records no
break index before the final one and the function emits no Typing interaction
— the remaining presses are silently dropped. -/
theorem keyboard_no_typing_for_absent_controls (recording : List InputEvent)
    (hctrl : ∀ g ∈ keyboard_remaining_candidates recording,
      (groupPress g).context.closest_ctrl_name = none)
    (hgap : List.Chain'
      (fun g g' => groupPressTs g' - groupPressTs g ≤ KEYBOARD_MAX_TYPING_DELAY_SECONDS)
      (keyboard_remaining_candidates recording)) :
    (∀ b ∈ typing_sequence_break_indexes (keyboard_remaining_candidates recording),
      b = (keyboard_remaining_candidates recording).length) ∧
      (interactions_from_keyboard_recording recording).countP
        (fun it => it.interaction_type == .KEYBOARD_TYPING) = 0 := by
  have hgap' : ∀ i : Nat, i + 1 < (keyboard_remaining_candidates recording).length →
      groupPressTs ((keyboard_remaining_candidates recording).getD (i + 1) []) -
        groupPressTs ((keyboard_remaining_candidates recording).getD i []) ≤
        KEYBOARD_MAX_TYPING_DELAY_SECONDS := by
    intro i hi
    have h1 := List.chain'_iff_get.mp hgap i (by omega)
    rw [List.getD_eq_getElem _ [] hi, List.getD_eq_getElem _ [] (show i < _ by omega)]
    simpa [List.get_eq_getElem] using h1
  have hbreaks := typing_break_indexes_all_none hctrl hgap'
  constructor
  · intro b hb
    rw [hbreaks] at hb
    split at hb
    · simp at hb
    · simpa using hb
  · unfold interactions_from_keyboard_recording
    split
    · rfl
    · rename_i hne
      have hsort : (sortRecording recording).Pairwise tsLE :=
        List.sorted_insertionSort tsLE recording
      have hinit : KbInv (sortRecording recording) 0
          ⟨(sortRecording recording).map some, [], [], false⟩ := by
        refine ⟨by simp, ?_, by simp, by simp, by simp, by simp⟩
        intro j e hj
        rw [List.get?_eq_getElem?, List.getElem?_map] at hj
        rw [List.get?_eq_getElem?]
        cases hx : (sortRecording recording)[j]? with
        | none => rw [hx] at hj; simp at hj
        | some y => rw [hx] at hj; simp at hj; rw [hj]
      obtain ⟨m, hinv⟩ := keyboardLoop_inv hsort _ 0 _ hinit
      obtain ⟨-, -, hout⟩ := popIndividuals_inv _ _ _ hinv.groups hinv.order hinv.ints
      have hrel : (popIndividuals (individual_key_press_indexes
            (keyboardLoop (sortRecording recording).length 0
              ⟨(sortRecording recording).map some, [], [], false⟩).related_keypress_events).reverse
          ((keyboardLoop (sortRecording recording).length 0
              ⟨(sortRecording recording).map some, [], [], false⟩).related_keypress_events,
           (keyboardLoop (sortRecording recording).length 0
              ⟨(sortRecording recording).map some, [], [], false⟩).interactions)).1 =
          keyboard_remaining_candidates recording := by
        unfold keyboard_remaining_candidates keyboard_related_candidates
        exact popIndividuals_fst _ _ _ _
      rw [List.Perm.countP_eq _ (List.perm_insertionSort startLE _), hrel,
        typingSplices_short (by rw [hbreaks]; split <;> simp)]
      rw [List.countP_eq_zero]
      intro it hit
      have := (hout it hit).2
      simpa using this

unseal Rat.sub Rat.mul Rat.inv Rat.add in
/-- Witness: the amended no-typing theorem applied at a concrete batch of two
close press/release pairs with absent control names. -/
theorem keyboard_no_typing_for_absent_controls_witness :
    (∀ b ∈ typing_sequence_break_indexes (keyboard_remaining_candidates nearPairsBatch),
      b = (keyboard_remaining_candidates nearPairsBatch).length) ∧
      (interactions_from_keyboard_recording nearPairsBatch).countP
        (fun it => it.interaction_type == .KEYBOARD_TYPING) = 0 :=
  keyboard_no_typing_for_absent_controls nearPairsBatch (by decide)
    (by
      have hrc : keyboard_remaining_candidates nearPairsBatch =
          [[.keyPress 0 1 ctx0, .keyRelease 2 1 ctx0],
           [.keyPress 1 2 ctx0, .keyRelease 3 2 ctx0]] := by decide
      rw [hrc]
      refine List.chain'_cons.mpr ⟨by decide, ?_⟩
      simp)

end ScreenWisdom
